import Mathlib

/-!
Verification of the zenmill template compiler (`src/job.js`, `src/compiler.js`,
`src/runtime.js`) against its specification.  The compile pipeline is embedded
as pure Lean functions over an explicit state; the promise-based control flow
of the source is modelled sequentially in textual order, and recursion through
included files is bounded by a fuel parameter.  Machine strings are modelled as
Lean strings (lists of characters).
-/

/-! ## Path model (Node.js `path.posix`, as used by `job.js`) -/

/-- Split a character list on `'/'`, mirroring how `path.normalize` tokenizes
its input into segments. -/
def splitSlash : List Char → List (List Char)
  | [] => [[]]
  | c :: rest =>
    let r := splitSlash rest
    if c = '/' then [] :: r
    else
      match r with
      | s :: ss => (c :: s) :: ss
      | [] => [[c]]

/-- Join segments with `'/'` (inverse of `splitSlash` on well-formed input). -/
def joinSegs : List (List Char) → List Char
  | [] => []
  | [s] => s
  | s :: rest => s ++ '/' :: joinSegs rest

/-- One step of Node's `normalizeString` segment resolution: skip empty and
`.` segments, resolve `..` against the accumulator (which is kept reversed);
`allowAbove` corresponds to `allowAboveRoot` (true for relative paths). -/
def normStep (allowAbove : Bool) (acc : List (List Char)) (seg : List Char) :
    List (List Char) :=
  if seg = [] ∨ seg = ['.'] then acc
  else if seg = ['.', '.'] then
    match acc with
    | [] => if allowAbove then [seg] else []
    | top :: rest =>
      if top = ['.', '.'] then (if allowAbove then seg :: acc else acc)
      else rest
  else seg :: acc

/-- Segment resolution over a whole list of segments. -/
def normSegs (allowAbove : Bool) (segs : List (List Char)) : List (List Char) :=
  (segs.foldl (normStep allowAbove) []).reverse

/-- Node's `path.posix.normalize` on character lists: resolve `.`/`..`
segments, preserve rootedness and a trailing slash. -/
def normChars (p : List Char) : List Char :=
  if p = [] then ['.']
  else
    let isAbs := p.head? == some '/'
    let trailing := p.getLast? == some '/'
    match normSegs (!isAbs) (splitSlash p) with
    | [] => if isAbs then ['/'] else if trailing then ['.', '/'] else ['.']
    | segs =>
      let body := joinSegs segs
      let body := if trailing then body ++ ['/'] else body
      if isAbs then '/' :: body else body

/-- Node's `path.posix.normalize` on strings. -/
def pathNormalize (p : String) : String := ⟨normChars p.data⟩

/-- Node's `path.posix.dirname`: scan from the end (positions `len-1` down
to `1`), skip trailing slashes, then the final name; cut at the slash found.
The scanned suffix is `(p.data.drop 1).reverse`; the cut position equals the
length of the remaining list. -/
def pathDirname (p : String) : String :=
  if p.data = [] then "."
  else
    let hasRoot := p.data.head? = some '/'
    let rcs := (p.data.drop 1).reverse
    let r2 := (rcs.dropWhile (· = '/')).dropWhile (· ≠ '/')
    if r2 = [] then (if hasRoot then "/" else ".")
    else if hasRoot ∧ r2.length = 1 then "//"
    else ⟨p.data.take r2.length⟩

/-- Node's `path.posix.join` restricted to two arguments: empty arguments are
skipped, the rest are joined with `'/'` and the result is normalized. -/
def pathJoin (a b : String) : String :=
  if a = "" ∧ b = "" then "."
  else if a = "" then pathNormalize b
  else if b = "" then pathNormalize a
  else pathNormalize (a ++ "/" ++ b)

/-- `String.startsWith`, spelled out on the underlying character lists. -/
def strStarts (s pre : String) : Bool := pre.data.isPrefixOf s.data

/-- `localPath` from `job.js`: rooted paths are normalized and stripped of
leading slashes (`.replace(/^\/+/, '')`), other paths are resolved against
the directory of `relativeTo`. -/
def localPath (relativeTo file : String) : String :=
  if strStarts file "/" then ⟨(pathNormalize file).data.dropWhile (· = '/')⟩
  else pathNormalize (pathJoin (pathDirname relativeTo) file)

/-! ## JSON string literals and code-emission helpers (`job.js` bottom) -/

/-- `JSON.stringify` on a single character (string element). -/
def jsonEscChar (c : Char) : List Char :=
  if c = '"' then ['\\', '"']
  else if c = '\\' then ['\\', '\\']
  else if c = '\n' then ['\\', 'n']
  else if c = '\r' then ['\\', 'r']
  else if c = '\t' then ['\\', 't']
  else [c]

/-- `JSON.stringify` of a string value. -/
def jsonStringify (s : String) : String :=
  ⟨'"' :: (s.data.flatMap jsonEscChar ++ ['"'])⟩

/-- `buffer(code)` from `job.js`. -/
def buffer (code : String) : String := "out.push(" ++ code ++ ")"

/-- `bufferText(str)` from `job.js`. -/
def bufferText (str : String) : String := buffer (jsonStringify str)

/-- `bufferEscaped(code)` from `job.js`. -/
def bufferEscaped (code : String) : String :=
  buffer ("escapeHtml(" ++ code ++ ")")

/-- `bufferEscapedText(str)` from `job.js`. -/
def bufferEscapedText (str : String) : String :=
  bufferEscaped (jsonStringify str)

/-- `scoped(code)` from `job.js`: wrap in an IIFE taking a fresh child of
`locals`. -/
def scopedCode (code : String) : String :=
  "(function(locals)\x7b" ++ code ++ "\x7d)(Object.create(locals))"

/-! ## AST (`src/parser` output consumed by `job.js`) -/

/-- Definition mode carried by `<def:>`/`<append:>`/`<prepend:>`. -/
inductive Mode where
  | replace
  | append
  | prepend
  deriving Repr, DecidableEq

/-- Template AST node (`job.js` dispatches on `node.type`; plain text comes
through as bare strings, modelled by the `plain` constructor). -/
inductive Node where
  | plain (text : String)
  | comment (content : String)
  | exprN (expr : String) (buffered escape : Bool)
  | varN (name expr : String)
  | incl (file : String) (nodes : List Node)
  | inline (file : String)
  | defN (name : String) (mode : Mode) (nodes : List Node)
  | block (name : String) (nodes : List Node)
  | ifN (whens : List (String × List Node)) (otherwise : Option (List Node))
  | eachN (name expr : String) (nodes : List Node)
  deriving Repr

/-! ## Composition contexts and job state -/

/-- One composition context frame (`{file, defs}`); the parent link is the
tail of the context chain. -/
structure Ctx where
  file : String
  defs : List (String × Mode × String)
  deriving Repr

/-- `defs[name]` lookup on one frame. -/
def lookupDef (defs : List (String × Mode × String)) (name : String) :
    Option (Mode × String) :=
  (defs.find? (·.1 == name)).map (·.2)

/-- `defs[name] = entry` assignment on one frame (update in place or add). -/
def setDef (defs : List (String × Mode × String)) (name : String)
    (entry : Mode × String) : List (String × Mode × String) :=
  if defs.any (·.1 == name) then
    defs.map (fun p => if p.1 == name then (name, entry) else p)
  else defs ++ [(name, entry)]

/-- `findDefinition(name, ctx)` from `job.js`: walk the context chain
parent-ward. -/
def findDefinition (name : String) : List Ctx → Option (Mode × String)
  | [] => none
  | c :: parents =>
    match lookupDef c.defs name with
    | some d => some d
    | none => findDefinition name parents

/-- The file of the current context (chains are nonempty in use). -/
def ctxFile : List Ctx → String
  | [] => ""
  | c :: _ => c.file

/-- Job-local mutable state: compiled expression list, AST cache, plus a log
of the loader invocations issued by `processFile` (template loads) and by
`_process_inline` (inline loads). -/
structure CompileState where
  expressions : List String
  cachedNodes : List (String × List Node)
  tmplLoads : List String
  inlineLoads : List String

/-- Cache lookup (`this.cachedNodes[file]`). -/
def cacheGet (cache : List (String × List Node)) (file : String) :
    Option (List Node) :=
  (cache.find? (·.1 == file)).map (·.2)

/-- Cache store (`this.cachedNodes[file] = nodes`). -/
def cacheSet (cache : List (String × List Node)) (file : String)
    (nodes : List Node) : List (String × List Node) :=
  if cache.any (·.1 == file) then
    cache.map (fun p => if p.1 == file then (file, nodes) else p)
  else cache ++ [(file, nodes)]

/-- Compile-time failure: a loader failure, or fuel exhaustion standing for
divergence of the (unguardedly recursive) source. -/
inductive CErr where
  | fuel
  | loadFail (path : String)
  deriving Repr, DecidableEq

/-! ## The compile pipeline (`Job.prototype.*` from `job.js`)

The promise plumbing of the source is modelled sequentially in textual
order; each processing function returns the (possibly mutated) node, the
emitted statement string, the updated context chain and job state.  The
loader (`params.load`) and the parser (`grammar.parse`) are the external
collaborators and are passed in as functions.  Note that in the source the
instance property `this.load = params.load` set by the constructor shadows
`Job.prototype.load` (which carries the `../` scope check), so every
`this.load(file)` call resolves to the caller's loader directly; the model
reproduces that resolution. -/

mutual

/-- One node (`_process_<type>` dispatch of `job.js`). -/
def processNode (load : String → Option String) (parse : String → List Node)
    (strip : Bool) :
    Nat → Node → List Ctx → CompileState →
    Except CErr (Node × String × List Ctx × CompileState)
  | 0, _, _, _ => .error .fuel
  | fuel + 1, node, chain, st =>
    match node with
    | .plain text => .ok (node, bufferText text, chain, st)
    | .comment content =>
      if strip then .ok (node, "", chain, st)
      else .ok (node, bufferText ("<!--" ++ content ++ "-->"), chain, st)
    | .exprN e buffered escape =>
      let st' := { st with expressions := st.expressions ++ [e] }
      let index := st'.expressions.length - 1
      let call := "$$[" ++ toString index ++ "](locals)"
      let stmt :=
        if buffered then (if escape then bufferEscaped call else buffer call)
        else call
      .ok (node, stmt, chain, st')
    | .varN name e =>
      let st' := { st with expressions := st.expressions ++ [e] }
      let index := st'.expressions.length - 1
      .ok (node, "locals." ++ name ++ " = $$[" ++ toString index ++ "](locals)",
        chain, st')
    | .defN name mode nodes => do
      let (nodes', code, chain', st') ← processNodes load parse strip fuel nodes chain st
      match chain' with
      | [] => .ok (.defN name mode nodes', "", [], st')
      | c :: parents =>
        let merged :=
          match lookupDef c.defs name with
          | some (m₀, c₀) =>
            match m₀ with
            | .append => c₀ ++ ";" ++ code
            | .prepend => code ++ ";" ++ c₀
            | .replace => code
          | none => code
        .ok (.defN name mode nodes', "",
          { c with defs := setDef c.defs name (mode, merged) } :: parents, st')
    | .block name nodes => do
      let d := findDefinition name chain
      let (nodes', code, chain', st') ← processNodes load parse strip fuel nodes chain st
      let emitted :=
        match d with
        | none => code
        | some (m, dcode) =>
          match m with
          | .append => code ++ ";" ++ dcode
          | .prepend => dcode ++ ";" ++ code
          | .replace => dcode
      .ok (.block name nodes', emitted, chain', st')
    | .incl file nodes => do
      let newCtx : Ctx := ⟨ctxFile chain, []⟩
      let (nodes', codes, chainIn, st') ←
        processChildren load parse strip fuel nodes (newCtx :: chain) st
      -- `let statements = ''; statements += code` stringifies the array of
      -- child results, joining them with ','.
      let statements := String.intercalate "," codes
      let chainIn :=
        match chainIn with
        | [] => []
        | c :: rest => { c with file := localPath c.file file } :: rest
      let (code, chainAfter, st'') ← processFile load parse strip fuel file chainIn st'
      .ok (.incl file nodes', scopedCode (statements ++ code), chainAfter.tail, st'')
    | .inline file =>
      let escaped := !(strStarts file "!")
      let file' := if strStarts file "!" then file.drop 1 else file
      let path := localPath (ctxFile chain) file'
      match load path with
      | none => .error (.loadFail path)
      | some content =>
        .ok (.inline file',
          (if escaped then bufferEscapedText content else bufferText content),
          chain, { st with inlineLoads := st.inlineLoads ++ [path] })
    | .ifN whens otherwise => do
      let (whens', arms, chain', st') ←
        processWhens load parse strip fuel whens chain st
      let statement := String.intercalate " else " arms
      match otherwise with
      | none =>
        .ok (.ifN whens' none, scopedCode statement, chain', st')
      | some onodes => do
        let (onodes', code, chain'', st'') ←
          processNodes load parse strip fuel onodes chain' st'
        .ok (.ifN whens' (some onodes'),
          scopedCode (statement ++ "else \x7b" ++ code ++ "\x7d"), chain'', st'')
    | .eachN name e nodes => do
      let st₀ := { st with expressions := st.expressions ++ [e] }
      let index := st₀.expressions.length - 1
      let statement := "each($$[" ++ toString index ++ "](locals)," ++
        jsonStringify name ++ "," ++ "locals," ++ "function(locals) \x7b"
      let (nodes', code, chain', st') ← processNodes load parse strip fuel nodes chain st₀
      .ok (.eachN name e nodes', scopedCode (statement ++ code ++ "\x7d)"), chain', st')

/-- The children of an include (`node.nodes.map` in `_process_include`);
`undefined` results from `_process_def` appear as empty strings.  The
source starts the siblings concurrently under `Promise.all`; this
definition runs them in textual order, which fixes the emitted-statement
order exactly as the source's `Promise.all` does, but also makes a later
sibling see an earlier sibling's cache writes — an ordering the source
guarantees only when the earlier sibling's load continuations have run
first (see `processFileStart` for the behavior when they have not). -/
def processChildren (load : String → Option String) (parse : String → List Node)
    (strip : Bool) :
    Nat → List Node → List Ctx → CompileState →
    Except CErr (List Node × List String × List Ctx × CompileState)
  | 0, _, _, _ => .error .fuel
  | _ + 1, [], chain, st => .ok ([], [], chain, st)
  | fuel + 1, n :: rest, chain, st => do
    let (n', code, chain', st') ← processNode load parse strip fuel n chain st
    let (rest', codes, chain'', st'') ←
      processChildren load parse strip fuel rest chain' st'
    .ok (n' :: rest', code :: codes, chain'', st'')

/-- The arms of an `<if>` (`node.when.map` in `_process_if`): each arm pushes
its expression, then its body is lowered and wrapped in `if (...) {...}`. -/
def processWhens (load : String → Option String) (parse : String → List Node)
    (strip : Bool) :
    Nat → List (String × List Node) → List Ctx → CompileState →
    Except CErr (List (String × List Node) × List String × List Ctx × CompileState)
  | 0, _, _, _ => .error .fuel
  | _ + 1, [], chain, st => .ok ([], [], chain, st)
  | fuel + 1, (e, nodes) :: rest, chain, st => do
    let st₀ := { st with expressions := st.expressions ++ [e] }
    let index := st₀.expressions.length - 1
    let ifCap := "if ($$[" ++ toString index ++ "](locals))"
    let (nodes', code, chain', st') ← processNodes load parse strip fuel nodes chain st₀
    let (rest', arms, chain'', st'') ←
      processWhens load parse strip fuel rest chain' st'
    .ok ((e, nodes') :: rest', (ifCap ++ "\x7b" ++ code ++ "\x7d") :: arms, chain'', st'')

/-- `Job.prototype.processNodes`: process a node list and join the emitted
statements with `';'`. -/
def processNodes (load : String → Option String) (parse : String → List Node)
    (strip : Bool) :
    Nat → List Node → List Ctx → CompileState →
    Except CErr (List Node × String × List Ctx × CompileState)
  | 0, _, _, _ => .error .fuel
  | fuel + 1, nodes, chain, st => do
    let (nodes', codes, chain', st') ←
      processChildren load parse strip fuel nodes chain st
    .ok (nodes', String.intercalate ";" codes, chain', st')

/-- `Job.prototype.processFile`: resolve the path against the parent
context's file, consult the AST cache, otherwise load, parse and cache.
In the source only the path resolution, the cache check and the loader
invocation are synchronous; `grammar.parse` and the `cachedNodes` write
happen in the load promise's `.then` continuation.  This definition
performs load→parse→cache as one step, which agrees with the source
whenever each reference to a path is processed after the previous
reference's load continuation has run (always true along a single include
chain); the synchronous prefix alone is modelled by `processFileStart`
below, which exhibits the cache miss that concurrent sibling references
suffer before any continuation runs.  Node mutations performed while
processing (the `'!'`-stripping of inline nodes) are written back to the
cache entry, mirroring the in-place mutation of the shared node objects
in the source. -/
def processFile (load : String → Option String) (parse : String → List Node)
    (strip : Bool) :
    Nat → String → List Ctx → CompileState →
    Except CErr (String × List Ctx × CompileState)
  | 0, _, _, _ => .error .fuel
  | fuel + 1, file, chain, st =>
    let parentFile := ((chain.tail.head?).map (·.file)).getD ""
    let file' := localPath parentFile file
    match cacheGet st.cachedNodes file' with
    | some nodes => do
      let (nodes', code, chain', st') ← processNodes load parse strip fuel nodes chain st
      .ok (code, chain',
        { st' with cachedNodes := cacheSet st'.cachedNodes file' nodes' })
    | none =>
      match load file' with
      | none => .error (.loadFail file')
      | some content => do
        let nodes := parse content
        let st₁ := { st with
          cachedNodes := cacheSet st.cachedNodes file' nodes,
          tmplLoads := st.tmplLoads ++ [file'] }
        let (nodes', code, chain', st') ← processNodes load parse strip fuel nodes chain st₁
        .ok (code, chain',
          { st' with cachedNodes := cacheSet st'.cachedNodes file' nodes' })

end

/-- `createCompiler(...).compile(file)` followed by `Job.prototype.compile`:
normalize the root path, start with a parentless context, and process the
root file; the final renderer assembly (`new Function`) is outside the
model, so the result is the emitted statement string plus the job state. -/
def compileJob (load : String → Option String) (parse : String → List Node)
    (strip : Bool) (fuel : Nat) (file : String) :
    Except CErr (String × CompileState) :=
  let root := pathNormalize file
  (processFile load parse strip fuel root [⟨root, []⟩] ⟨[], [], [], []⟩).map
    (fun r => (r.1, r.2.2))

/-! ## Runtime values (`runtime.js`) -/

/-- JavaScript values as far as the runtime primitives inspect them. -/
inductive JsVal where
  | null
  | undefined
  | bool (b : Bool)
  | num (n : Int)
  | str (s : String)
  | arr (xs : List JsVal)
  | obj (fields : List (String × JsVal))

mutual

/-- `String(v)` as used by `escapeHtml` and the output buffer. -/
def jsToString : JsVal → String
  | .null => "null"
  | .undefined => "undefined"
  | .bool true => "true"
  | .bool false => "false"
  | .num n => toString n
  | .str s => s
  | .arr xs => String.intercalate "," (jsToStringList xs)
  | .obj _ => "[object Object]"

/-- Elements of an array stringify with `','` joins; `null`/`undefined`
elements stringify to the empty string. -/
def jsToStringList : List JsVal → List String
  | [] => []
  | v :: vs =>
    (match v with
     | .null => ""
     | .undefined => ""
     | w => jsToString w) :: jsToStringList vs

end

/-- JavaScript truthiness of a value. -/
def jsTruthy : JsVal → Bool
  | .null => false
  | .undefined => false
  | .bool b => b
  | .num n => n != 0
  | .str s => s != ""
  | .arr _ => true
  | .obj _ => true

/-! ## `escapeHtml` (`runtime.js`) -/

/-- One global single-character replacement pass, the meaning of
`String.prototype.replace` with a one-character global pattern. -/
def replaceChar (c : Char) (r : List Char) (s : List Char) : List Char :=
  s.flatMap (fun x => if x = c then r else [x])

/-- `escapeHtml` from `runtime.js`: replace `&`, `<`, `>`, `"` in that
order. -/
def escHtml (s : List Char) : List Char :=
  replaceChar '"' ['&', 'q', 'u', 'o', 't', ';']
    (replaceChar '>' ['&', 'g', 't', ';']
      (replaceChar '<' ['&', 'l', 't', ';']
        (replaceChar '&' ['&', 'a', 'm', 'p', ';'] s)))

/-- `escapeHtml` on strings (the argument is already a string; `String(x)`
conversion for other values happens via `jsToString`). -/
def escapeHtml (s : String) : String := ⟨escHtml s.data⟩

/-- Every ampersand in the list begins one of the four entities introduced
by `escapeHtml`. -/
def ampOk : List Char → Bool
  | [] => true
  | c :: rest =>
    (if c = '&' then
      (['a', 'm', 'p', ';'].isPrefixOf rest ||
       ['l', 't', ';'].isPrefixOf rest ||
       ['g', 't', ';'].isPrefixOf rest ||
       ['q', 'u', 'o', 't', ';'].isPrefixOf rest)
     else true) && ampOk rest

/-! ## Scopes (prototype chains of `locals` objects) -/

/-- One `locals` object's own properties, in insertion order. -/
abbrev Frame := List (String × JsVal)

/-- A prototype chain of `locals` objects, innermost first. -/
abbrev Scope := List Frame

/-- Own-property lookup. -/
def frameGet (f : Frame) (k : String) : Option JsVal :=
  (f.find? (·.1 == k)).map (·.2)

/-- Own-property assignment: update in place or append. -/
def frameSet (f : Frame) (k : String) (v : JsVal) : Frame :=
  if f.any (·.1 == k) then
    f.map (fun p => if p.1 == k then (k, v) else p)
  else f ++ [(k, v)]

/-- Property read: walk the prototype chain; a miss yields `undefined`. -/
def getVar : Scope → String → JsVal
  | [], _ => .undefined
  | f :: rest, k =>
    match frameGet f k with
    | some v => v
    | none => getVar rest k

/-- Property write `locals.k = v`: always targets the own frame, never the
prototype. -/
def setOwn : Scope → String → JsVal → Scope
  | [], _, _ => []
  | f :: rest, k, v => frameSet f k v :: rest

/-- `Object.create(locals)`: a fresh object whose prototype is `locals`. -/
def childScope (σ : Scope) : Scope := [] :: σ

/-! ## The `each` primitive (`runtime.js`) -/

/-- `obj[k]` for the keyed-mapping branch of `each`. -/
def objGet (fields : List (String × JsVal)) (k : String) : JsVal :=
  match (fields.find? (·.1 == k)).map (·.2) with
  | some v => v
  | none => .undefined

/-- The body of `it(v, k, arr)`: the five bindings written onto the `each`
caller's `locals` (in source order: value, then `_key`/`_index`, then
`_last`, then `_has_next`). -/
def bindIter (name : String) (v k : JsVal) (isLast : Bool) (σ : Scope) : Scope :=
  setOwn (setOwn (setOwn (setOwn (setOwn σ name v)
    (name ++ "_key") k) (name ++ "_index") k)
    (name ++ "_last") (.bool isLast)) (name ++ "_has_next") (.bool !isLast)

/-- `Object.keys(obj).sort()`: the keys in ascending lexicographic
(code-point) order. -/
def sortKeys (l : List String) : List String := l.insertionSort (· ≤ ·)

/-- The array branch of `each` (`obj.forEach(it)`), with `n` the array
length; `fn` receives `Object.create(locals)` and threads an accumulator. -/
def eachArr {α : Type} (name : String) (n : Nat)
    (fn : Scope → α → Except String α) :
    Nat → List JsVal → Scope → α → Except String (Scope × α)
  | _, [], σ, acc => .ok (σ, acc)
  | i, v :: vs, σ, acc => do
    let σ' := bindIter name v (.num i) (decide (i = n - 1)) σ
    let acc' ← fn (childScope σ') acc
    eachArr name n fn (i + 1) vs σ' acc'

/-- The keyed-mapping branch of `each` (`keys.forEach(...)`); `ks` is the
full sorted key list (`arr` in the source), so a key is last exactly when
it equals `arr[arr.length - 1]`. -/
def eachObj {α : Type} (name : String) (fields : List (String × JsVal))
    (ks : List String) (fn : Scope → α → Except String α) :
    List String → Scope → α → Except String (Scope × α)
  | [], σ, acc => .ok (σ, acc)
  | k :: rest, σ, acc => do
    let σ' := bindIter name (objGet fields k) (.str k)
      (decide (ks.getLast? = some k)) σ
    let acc' ← fn (childScope σ') acc
    eachObj name fields ks fn rest σ' acc'

/-- `each(obj, varName, locals, fn)` from `runtime.js`: nothing for
`null`/`undefined`, index iteration for arrays, sorted-key iteration for
other objects, and a `Non-iterable` failure for primitives. -/
def jsEach {α : Type} (obj : JsVal) (name : String) (σ : Scope) (init : α)
    (fn : Scope → α → Except String α) : Except String (Scope × α) :=
  match obj with
  | .null => .ok (σ, init)
  | .undefined => .ok (σ, init)
  | .arr xs => eachArr name xs.length fn 0 xs σ init
  | .obj fields =>
    let ks := sortKeys (fields.map Prod.fst)
    eachObj name fields ks fn ks σ init
  | v => .error ("Non-iterable object " ++ jsToString v)

/-! ## Semantics of the emitted statements

The compiler emits JavaScript code strings; this is the runtime meaning of
the statement shapes it produces.  Expressions are the opaque capability of
the expression evaluator, modelled as functions from the scope to a value. -/

/-- The statement forms produced by `job.js`:
`push` is `out.push(...)`, optionally through `escapeHtml`
(`buffer`/`bufferEscaped`); `assign` is the `locals.name = $$[i](locals)`
emitted by `_process_var`; `scopedS` is the `scoped(...)` IIFE applied to
`Object.create(locals)`; `ite` is an emitted `if (...) {...} else {...}`
chain link; `eachS` is the `each($$[i](locals), name, locals, function
(locals) {...})` call emitted by `_process_each`. -/
inductive RStmt where
  | push (esc : Bool) (e : Scope → JsVal)
  | assign (name : String) (e : Scope → JsVal)
  | scopedS (body : List RStmt)
  | ite (c : Scope → JsVal) (thn els : List RStmt)
  | eachS (name : String) (e : Scope → JsVal) (body : List RStmt)

mutual

/-- Execute one statement against the current `locals` chain and output
buffer. -/
def execStmt : RStmt → Scope → List String → Except String (Scope × List String)
  | .push esc e, σ, out =>
    let s := jsToString (e σ)
    .ok (σ, out ++ [if esc then escapeHtml s else s])
  | .assign n e, σ, out => .ok (setOwn σ n (e σ), out)
  | .scopedS body, σ, out => do
    let r ← execStmts body (childScope σ) out
    .ok (σ, r.2)
  | .ite c thn els, σ, out =>
    if jsTruthy (c σ) then execStmts thn σ out
    else execStmts els σ out
  | .eachS name e body, σ, out => do
    jsEach (e σ) name σ out (fun s acc => (execStmts body s acc).map (·.2))

/-- Execute a statement sequence, threading the scope and the output
buffer. -/
def execStmts : List RStmt → Scope → List String → Except String (Scope × List String)
  | [], σ, out => .ok (σ, out)
  | s :: rest, σ, out => do
    let r ← execStmt s σ out
    execStmts rest r.1 r.2

end

/-! ## Lemmas about `escapeHtml` -/

/-- The single-pass character encoding that the four sequential replacement
passes of `escapeHtml` amount to. -/
def encodeChar (c : Char) : List Char :=
  if c = '&' then ['&', 'a', 'm', 'p', ';']
  else if c = '<' then ['&', 'l', 't', ';']
  else if c = '>' then ['&', 'g', 't', ';']
  else if c = '"' then ['&', 'q', 'u', 'o', 't', ';']
  else [c]

lemma replaceChar_nil (c : Char) (r : List Char) : replaceChar c r [] = [] := rfl

lemma replaceChar_cons (c : Char) (r : List Char) (x : Char) (s : List Char) :
    replaceChar c r (x :: s) =
      (if x = c then r else [x]) ++ replaceChar c r s := by
  simp [replaceChar]

lemma escHtml_nil : escHtml [] = [] := rfl

lemma replaceChar_append (c : Char) (r : List Char) (s t : List Char) :
    replaceChar c r (s ++ t) = replaceChar c r s ++ replaceChar c r t := by
  simp [replaceChar]

lemma escHtml_cons (x : Char) (s : List Char) :
    escHtml (x :: s) = encodeChar x ++ escHtml s := by
  by_cases h1 : x = '&'
  · subst h1; simp [escHtml, replaceChar_cons, replaceChar_append, encodeChar, replaceChar]
  · by_cases h2 : x = '<'
    · subst h2; simp [escHtml, replaceChar_cons, replaceChar_append, encodeChar, replaceChar]
    · by_cases h3 : x = '>'
      · subst h3; simp [escHtml, replaceChar_cons, replaceChar_append, encodeChar, replaceChar]
      · by_cases h4 : x = '"'
        · subst h4; simp [escHtml, replaceChar_cons, replaceChar_append, encodeChar, replaceChar]
        · simp [escHtml, replaceChar_cons, replaceChar_append, encodeChar, replaceChar,
            h1, h2, h3, h4]

lemma ampOk_encodeChar_append (x : Char) (t : List Char) (ht : ampOk t = true) :
    ampOk (encodeChar x ++ t) = true := by
  by_cases h1 : x = '&'
  · subst h1; simp [encodeChar, ampOk, List.isPrefixOf, ht]
  · by_cases h2 : x = '<'
    · subst h2; simp [encodeChar, ampOk, List.isPrefixOf, ht]
    · by_cases h3 : x = '>'
      · subst h3; simp [encodeChar, ampOk, List.isPrefixOf, ht]
      · by_cases h4 : x = '"'
        · subst h4; simp [encodeChar, ampOk, List.isPrefixOf, ht]
        · simp [encodeChar, h1, h2, h3, h4, ampOk, ht]

lemma encodeChar_not_mem (x : Char) (c : Char)
    (hc : c = '<' ∨ c = '>' ∨ c = '"') : c ∉ encodeChar x := by
  by_cases h1 : x = '&'
  · subst h1; rcases hc with rfl | rfl | rfl <;> simp [encodeChar]
  · by_cases h2 : x = '<'
    · subst h2; rcases hc with rfl | rfl | rfl <;> simp [encodeChar]
    · by_cases h3 : x = '>'
      · subst h3; rcases hc with rfl | rfl | rfl <;> simp [encodeChar]
      · by_cases h4 : x = '"'
        · subst h4; rcases hc with rfl | rfl | rfl <;> simp [encodeChar]
        · rcases hc with rfl | rfl | rfl <;> simp [encodeChar, h1, h2, h3, h4]
          · exact fun h => h2 h.symm
          · exact fun h => h3 h.symm
          · exact fun h => h4 h.symm

lemma escHtml_props (s : List Char) :
    ('<' ∉ escHtml s) ∧ ('>' ∉ escHtml s) ∧ ('"' ∉ escHtml s) ∧
      ampOk (escHtml s) = true := by
  induction s with
  | nil => simp [escHtml_nil, ampOk]
  | cons x s ih =>
    rw [escHtml_cons]
    refine ⟨?_, ?_, ?_, ?_⟩
    · simp only [List.mem_append]
      rintro (h | h)
      · exact encodeChar_not_mem x '<' (by simp) h
      · exact ih.1 h
    · simp only [List.mem_append]
      rintro (h | h)
      · exact encodeChar_not_mem x '>' (by simp) h
      · exact ih.2.1 h
    · simp only [List.mem_append]
      rintro (h | h)
      · exact encodeChar_not_mem x '"' (by simp) h
      · exact ih.2.2.1 h
    · exact ampOk_encodeChar_append x _ ih.2.2.2

/-- C6: `escape_html` stringifies and performs the replacements
`&`→`&amp;`, `<`→`&lt;`, `>`→`&gt;`, `"`→`&quot;` in exactly that order
(the definition of `escHtml`), so for any input string the result contains
no `<`, no `>`, no `"`, and no `&` other than the ampersands opening the
entities introduced by the escaping itself. -/
theorem c6_escape_html_correct (s : String) :
    ('<' ∉ (escapeHtml s).data) ∧ ('>' ∉ (escapeHtml s).data) ∧
      ('"' ∉ (escapeHtml s).data) ∧ ampOk (escapeHtml s).data = true := by
  have h := escHtml_props s.data
  simpa [escapeHtml] using h

/-! ## C9: `each` on null/undefined and on primitives -/

/-- C9: at render time, `each` applied to a null or undefined collection
produces no iterations and no error, while applied to a number or a string
it fails with the `Non-iterable` error. -/
theorem c9_each_null_noniterable :
    (∀ (α : Type) (name : String) (σ : Scope) (init : α)
       (fn : Scope → α → Except String α),
       jsEach JsVal.null name σ init fn = .ok (σ, init) ∧
       jsEach JsVal.undefined name σ init fn = .ok (σ, init)) ∧
    (∀ (α : Type) (name : String) (σ : Scope) (init : α)
       (fn : Scope → α → Except String α) (n : Int) (s : String),
       jsEach (JsVal.num n) name σ init fn =
         .error ("Non-iterable object " ++ toString n) ∧
       jsEach (JsVal.str s) name σ init fn =
         .error ("Non-iterable object " ++ s)) := by
  refine ⟨fun α name σ init fn => ⟨rfl, rfl⟩, fun α name σ init fn n s => ⟨?_, ?_⟩⟩
  · simp [jsEach, jsToString]
  · simp [jsEach, jsToString]

/-! ## C3: the out-of-scope guard is dead code -/

/-- C3 (refuted; code bug): the `../` scope check lives on
`Job.prototype.load`, but the constructor's `this.load = params.load`
shadows it, so `processFile` hands above-root paths straight to the
caller's loader.  Concretely: a root template whose include resolves to
`../secret` (a normalized path beginning with `../`) compiles successfully
and the loader IS invoked for `../secret`, contradicting the claim that
compilation fails with an out-of-scope error before the loader is invoked. -/
theorem c3_scope_guard_shadowed :
    strStarts "../secret" "../" = true ∧
    (compileJob
        (fun p => if p = "index.html" then some "ROOT"
          else if p = "../secret" then some "S" else none)
        (fun c => if c = "ROOT" then [Node.incl "../secret" []] else [])
        false 10 "index.html").map (fun r => r.2.tmplLoads) =
      .ok ["index.html", "../secret"] :=
  ⟨rfl, rfl⟩

/-! ## C10: inline `'!'`-stripping mutates the cached AST -/

/-- C10: processing an `Inline` node whose file begins with `'!'` mutates
the cached node in place, so reprocessing the SAME cached node emits the
content escaped.  Scenario with a nested second reference:
`a.html` = `<include file='t.html'/><include file='b.html'/>`,
`b.html` = `<include file='t.html'/>`, and `t.html` =
`<inline file="!raw.html"/>` (content `<b>`).  The second reference to
`t.html` is created only inside `b.html`'s parse continuation; in the
source's microtask order (with loads resolving in the order they are
issued, e.g. an already-resolved loader), that continuation runs after
`t.html`'s own load continuation has parsed, cached and synchronously
stripped the inline node, so the second reference hits the cache on the
mutated node — the order this sequential model realizes.  Result: `t.html`
is loaded once, the first occurrence emits `out.push("<b>")` unescaped,
the second emits `out.push(escapeHtml("<b>"))`, and the cache ends up
holding the node without its `'!'` prefix.  (Two SIBLING references to an
uncached `t.html` would instead each miss the cache and be parsed twice —
the stampede exhibited for C4 — and both would emit unescaped.) -/
theorem c10_inline_not_idempotent :
    (compileJob
        (fun p => if p = "a.html" then some "A"
          else if p = "t.html" then some "T"
          else if p = "b.html" then some "B"
          else if p = "raw.html" then some "<b>" else none)
        (fun c => if c = "A" then [Node.incl "t.html" [], Node.incl "b.html" []]
          else if c = "T" then [Node.inline "!raw.html"]
          else if c = "B" then [Node.incl "t.html" []] else [])
        false 20 "a.html").map
      (fun r => (r.1, r.2.tmplLoads, cacheGet r.2.cachedNodes "t.html")) =
    .ok ("(function(locals)\x7bout.push(\"<b>\")\x7d)(Object.create(locals));" ++
         "(function(locals)\x7b(function(locals)\x7bout.push(escapeHtml(\"<b>\"))" ++
         "\x7d)(Object.create(locals))\x7d)(Object.create(locals))",
         ["a.html", "t.html", "b.html"],
         some [Node.inline "raw.html"]) :=
  rfl

/-- Reduction of `Except` binds on a known-`ok` scrutinee. -/
lemma except_bind_ok {ε α β : Type} (a : α) (f : α → Except ε β) :
    (Except.ok (ε := ε) a >>= f) = f a := rfl

/-- Reduction of `Except` binds on a known-`error` scrutinee. -/
lemma except_bind_error {ε α β : Type} (e : ε) (f : α → Except ε β) :
    (Except.error (α := α) e >>= f) = Except.error e := rfl

/-! ## C1: block resolution against the context chain -/

/-- C1: for a `Block` node whose default body lowers to `D`: if
`findDefinition` (the parent-ward walk of the context chain) finds a stored
definition with body `X`, the emitted output is `X` for mode `replace`,
`D;X` for mode `append`, and `X;D` for mode `prepend`; if no definition
exists anywhere on the chain, the default `D` is emitted and processing
still succeeds (no error). -/
theorem c1_block_resolution (load : String → Option String)
    (parse : String → List Node) (strip : Bool) (fuel : Nat)
    (name : String) (nodes : List Node) (chain : List Ctx) (st : CompileState)
    (nodes' : List Node) (D : String) (chain' : List Ctx) (st' : CompileState)
    (h : processNodes load parse strip fuel nodes chain st =
      .ok (nodes', D, chain', st')) :
    (∀ X, findDefinition name chain = some (Mode.replace, X) →
       processNode load parse strip (fuel + 1) (Node.block name nodes) chain st =
         .ok (Node.block name nodes', X, chain', st')) ∧
    (∀ X, findDefinition name chain = some (Mode.append, X) →
       processNode load parse strip (fuel + 1) (Node.block name nodes) chain st =
         .ok (Node.block name nodes', D ++ ";" ++ X, chain', st')) ∧
    (∀ X, findDefinition name chain = some (Mode.prepend, X) →
       processNode load parse strip (fuel + 1) (Node.block name nodes) chain st =
         .ok (Node.block name nodes', X ++ ";" ++ D, chain', st')) ∧
    (findDefinition name chain = none →
       processNode load parse strip (fuel + 1) (Node.block name nodes) chain st =
         .ok (Node.block name nodes', D, chain', st')) := by
  refine ⟨fun X hf => ?_, fun X hf => ?_, fun X hf => ?_, fun hf => ?_⟩ <;>
    simp [processNode, h, hf, except_bind_ok]

/-- Witness for C1 at a concrete input: an `append` definition stored on
the chain merges as `default;stored`. -/
theorem c1_block_witness :
    processNode (fun _ => none) (fun _ => []) false 4
      (Node.block "content" [Node.plain "D"])
      [⟨"f", [("content", (Mode.append, "X"))]⟩] ⟨[], [], [], []⟩ =
      .ok (Node.block "content" [Node.plain "D"], "out.push(\"D\");X",
        [⟨"f", [("content", (Mode.append, "X"))]⟩], ⟨[], [], [], []⟩) :=
  (c1_block_resolution (fun _ => none) (fun _ => []) false 3 "content"
    [Node.plain "D"] [⟨"f", [("content", (Mode.append, "X"))]⟩] ⟨[], [], [], []⟩
    [Node.plain "D"] "out.push(\"D\")" [⟨"f", [("content", (Mode.append, "X"))]⟩]
    ⟨[], [], [], []⟩ rfl).2.1 "X" rfl

/-! ## C2: merging of same-name definitions -/

/-- C2 counterexample: with a stored definition `(replace, "OLD")` and a new
`<append:content>` whose body lowers to the empty statement, the claim's
rule (merge by the NEW definition's mode, `append`) demands the stored body
`"OLD;"`, but the code switches on the STORED definition's mode (`replace`),
so the new body simply replaces the old one and `""` is stored. -/
theorem c2_def_merge_counterexample :
    processNode (fun _ => none) (fun _ => []) false 3
      (Node.defN "content" Mode.append [])
      [⟨"f", [("content", (Mode.replace, "OLD"))]⟩] ⟨[], [], [], []⟩ =
      .ok (Node.defN "content" Mode.append [], "",
        [⟨"f", [("content", (Mode.append, ""))]⟩], ⟨[], [], [], []⟩) ∧
    ("" : String) ≠ "OLD" ++ ";" ++ "" :=
  ⟨rfl, by decide⟩

/-- C2 amended: when a `Def` is processed and a definition for the same name
is already stored in the current context frame, the bodies are merged
according to the STORED (earlier) definition's mode — `replace` makes the
new body `L` replace the old, `append` makes the stored body `old;L`,
`prepend` makes the stored body `L;old` — and the merged body is recorded
under the NEW definition's mode; Defs with the same name are merged
pairwise in textual (processing) order by this rule. -/
theorem c2_def_merge_amended (load : String → Option String)
    (parse : String → List Node) (strip : Bool) (fuel : Nat)
    (name : String) (mode : Mode) (nodes : List Node)
    (chain : List Ctx) (st : CompileState)
    (nodes' : List Node) (L : String) (c' : Ctx) (parents' : List Ctx)
    (st' : CompileState)
    (h : processNodes load parse strip fuel nodes chain st =
      .ok (nodes', L, c' :: parents', st')) :
    (lookupDef c'.defs name = none →
       processNode load parse strip (fuel + 1) (Node.defN name mode nodes) chain st =
         .ok (Node.defN name mode nodes', "",
           { c' with defs := setDef c'.defs name (mode, L) } :: parents', st')) ∧
    (∀ old, lookupDef c'.defs name = some (Mode.replace, old) →
       processNode load parse strip (fuel + 1) (Node.defN name mode nodes) chain st =
         .ok (Node.defN name mode nodes', "",
           { c' with defs := setDef c'.defs name (mode, L) } :: parents', st')) ∧
    (∀ old, lookupDef c'.defs name = some (Mode.append, old) →
       processNode load parse strip (fuel + 1) (Node.defN name mode nodes) chain st =
         .ok (Node.defN name mode nodes', "",
           { c' with defs := setDef c'.defs name (mode, old ++ ";" ++ L) } :: parents',
           st')) ∧
    (∀ old, lookupDef c'.defs name = some (Mode.prepend, old) →
       processNode load parse strip (fuel + 1) (Node.defN name mode nodes) chain st =
         .ok (Node.defN name mode nodes', "",
           { c' with defs := setDef c'.defs name (mode, L ++ ";" ++ old) } :: parents',
           st')) := by
  refine ⟨fun hf => ?_, fun old hf => ?_, fun old hf => ?_, fun old hf => ?_⟩ <;>
    simp [processNode, h, hf, except_bind_ok]

/-- Witness for the amended C2 at a concrete input: a stored `append`
definition merges as `old;new` and is re-stored under the new `replace`
mode. -/
theorem c2_def_merge_witness :
    processNode (fun _ => none) (fun _ => []) false 3
      (Node.defN "content" Mode.replace [])
      [⟨"f", [("content", (Mode.append, "OLD"))]⟩] ⟨[], [], [], []⟩ =
      .ok (Node.defN "content" Mode.replace [], "",
        [⟨"f", [("content", (Mode.replace, "OLD" ++ ";" ++ ""))]⟩],
        ⟨[], [], [], []⟩) :=
  (c2_def_merge_amended (fun _ => none) (fun _ => []) false 2 "content"
    Mode.replace [] [⟨"f", [("content", (Mode.append, "OLD"))]⟩] ⟨[], [], [], []⟩
    [] "" ⟨"f", [("content", (Mode.append, "OLD"))]⟩ [] ⟨[], [], [], []⟩
    rfl).2.2.1 "OLD" rfl

/-! ## Scope lemmas -/

lemma find_mapSet_self (f : Frame) (k : String) (v : JsVal)
    (h : f.any (·.1 == k) = true) :
    (f.map (fun p => if p.1 == k then (k, v) else p)).find? (·.1 == k) =
      some (k, v) := by
  induction f with
  | nil => simp at h
  | cons p f ih =>
    by_cases hp : (p.1 == k) = true
    · rw [List.map_cons, if_pos hp, List.find?_cons_of_pos _ (by simp)]
    · have h' : f.any (·.1 == k) = true := by
        simpa [List.any_cons, hp] using h
      rw [List.map_cons, if_neg hp,
        List.find?_cons_of_neg (p := fun (x : String × JsVal) => x.1 == k) _ hp]
      exact ih h'

lemma find_mapSet_ne (f : Frame) (k k' : String) (v : JsVal)
    (hne : k' ≠ k) :
    (f.map (fun p => if p.1 == k then (k, v) else p)).find? (·.1 == k') =
      f.find? (·.1 == k') := by
  induction f with
  | nil => rfl
  | cons p f ih =>
    by_cases hp : (p.1 == k) = true
    · have hp' : p.1 = k := by simpa using hp
      rw [List.map_cons, if_pos hp,
        List.find?_cons_of_neg _ (by simp [Ne.symm hne]),
        List.find?_cons_of_neg _ (by simp [hp', Ne.symm hne])]
      exact ih
    · rw [List.map_cons, if_neg hp]
      by_cases hk' : (p.1 == k') = true
      · rw [List.find?_cons_of_pos (p := fun (x : String × JsVal) => x.1 == k') _ hk',
          List.find?_cons_of_pos (p := fun (x : String × JsVal) => x.1 == k') _ hk']
      · rw [List.find?_cons_of_neg (p := fun (x : String × JsVal) => x.1 == k') _ hk',
          List.find?_cons_of_neg (p := fun (x : String × JsVal) => x.1 == k') _ hk']
        exact ih

lemma frameGet_frameSet_self (f : Frame) (k : String) (v : JsVal) :
    frameGet (frameSet f k v) k = some v := by
  unfold frameSet frameGet
  by_cases h : f.any (·.1 == k) = true
  · rw [if_pos h, find_mapSet_self f k v h]
    rfl
  · rw [if_neg h, List.find?_append]
    have hnone : f.find? (·.1 == k) = none := by
      rw [List.find?_eq_none]
      intro x hx hxk
      exact h (List.any_eq_true.mpr ⟨x, hx, hxk⟩)
    rw [hnone]
    simp [List.find?]

lemma frameGet_frameSet_ne (f : Frame) (k k' : String) (v : JsVal)
    (hne : k' ≠ k) : frameGet (frameSet f k v) k' = frameGet f k' := by
  unfold frameSet frameGet
  by_cases h : f.any (·.1 == k) = true
  · rw [if_pos h, find_mapSet_ne f k k' v hne]
  · rw [if_neg h, List.find?_append]
    have hkk : (k == k') = false := by
      simpa using Ne.symm hne
    have : List.find? (fun x => x.1 == k') [(k, v)] = none := by
      simp [List.find?, hkk]
    rw [this]
    simp

lemma setOwn_ne_nil (σ : Scope) (k : String) (v : JsVal) (h : σ ≠ []) :
    setOwn σ k v ≠ [] := by
  cases σ with
  | nil => exact absurd rfl h
  | cons f rest => simp [setOwn]

lemma getVar_setOwn_self (σ : Scope) (k : String) (v : JsVal) (h : σ ≠ []) :
    getVar (setOwn σ k v) k = v := by
  cases σ with
  | nil => exact absurd rfl h
  | cons f rest => simp [setOwn, getVar, frameGet_frameSet_self]

lemma getVar_setOwn_ne (σ : Scope) (k k' : String) (v : JsVal)
    (hne : k' ≠ k) : getVar (setOwn σ k v) k' = getVar σ k' := by
  cases σ with
  | nil => rfl
  | cons f rest => simp [setOwn, getVar, frameGet_frameSet_ne f k k' v hne]

lemma getVar_childScope (σ : Scope) (k : String) :
    getVar (childScope σ) k = getVar σ k := by
  simp [childScope, getVar, frameGet]

/-! ## C5: lexical scoping of the emitted constructs -/

/-- C5: Include bodies, whole If chains and Each bodies are emitted inside
`scoped(...)`, i.e. an IIFE applied to `Object.create(locals)`
(`RStmt.scopedS`).  (i) Executing such a construct returns the enclosing
scope unchanged, so a `Var` binding created inside is invisible to the
construct's siblings; (ii) outer bindings remain visible inside the fresh
child scope via prototype-style lookup; (iii) an emitted `Var` assignment
(`RStmt.assign`) binds the name in the current scope, where the construct's
remaining statements and descendants read it back. -/
theorem c5_scope_isolation :
    (∀ (body : List RStmt) (σ : Scope) (out : List String)
       (σ' : Scope) (out' : List String),
       execStmt (RStmt.scopedS body) σ out = .ok (σ', out') → σ' = σ) ∧
    (∀ (σ : Scope) (n : String), getVar (childScope σ) n = getVar σ n) ∧
    (∀ (σ : Scope) (n : String) (e : Scope → JsVal) (out : List String)
       (σ₂ : Scope) (out₂ : List String),
       σ ≠ [] →
       execStmt (RStmt.assign n e) σ out = .ok (σ₂, out₂) →
       getVar σ₂ n = e σ ∧ out₂ = out) := by
  refine ⟨fun body σ out σ' out' h => ?_, getVar_childScope, ?_⟩
  · unfold execStmt at h
    cases hb : execStmts body (childScope σ) out with
    | error e =>
      rw [hb] at h
      simp only [except_bind_error] at h
      exact absurd h (fun hh => by cases hh)
    | ok r =>
      rw [hb] at h
      simp only [except_bind_ok] at h
      cases h
      rfl
  · intro σ n e out σ₂ out₂ hσ h
    unfold execStmt at h
    cases h
    exact ⟨getVar_setOwn_self σ n (e σ) hσ, rfl⟩

/-- Witness for C5 at concrete inputs: a binding made inside a scoped
construct does not leak (the sibling scope is returned unchanged), and an
assignment is readable in the scope it produced. -/
theorem c5_scope_isolation_witness :
    ([[("x", JsVal.num 7)]] : Scope) = [[("x", JsVal.num 7)]] ∧
    getVar (childScope [[("x", JsVal.num 7)]]) "x" = JsVal.num 7 ∧
    getVar (setOwn [[("y", JsVal.num 0)]] "y" (JsVal.num 2)) "y" = JsVal.num 2 :=
  ⟨c5_scope_isolation.1 [RStmt.assign "z" (fun _ => JsVal.num 1)]
      [[("x", JsVal.num 7)]] [] _ _ rfl,
   (c5_scope_isolation.2.1 [[("x", JsVal.num 7)]] "x").trans rfl,
   ((c5_scope_isolation.2.2 [[("y", JsVal.num 0)]] "y" (fun _ => JsVal.num 2)
      [] _ _ (List.cons_ne_nil _ _) rfl).1).trans rfl⟩

/-! ## Lemmas about `each` iteration -/

lemma str_append_ne (name s t : String) (h : s ≠ t) :
    name ++ s ≠ name ++ t := by
  intro heq
  apply h
  have h2 : name.data ++ s.data = name.data ++ t.data := by
    rw [← String.data_append, ← String.data_append, heq]
  have h3 := List.append_cancel_left h2
  cases s; cases t
  exact congrArg String.mk (by simpa using h3)

lemma name_ne_append (name s : String) (h : s ≠ "") : name ≠ name ++ s := by
  intro heq
  apply h
  have h2 : name.length = name.length + s.length := by
    rw [← String.length_append, ← heq]
  have h3 : s.length = 0 := by omega
  cases s with
  | mk data =>
    simp [String.length] at h3
    subst h3
    rfl

lemma bindIter_ne_nil (name : String) (v k : JsVal) (last : Bool) (σ : Scope)
    (h : σ ≠ []) : bindIter name v k last σ ≠ [] := by
  unfold bindIter
  exact setOwn_ne_nil _ _ _ (setOwn_ne_nil _ _ _ (setOwn_ne_nil _ _ _
    (setOwn_ne_nil _ _ _ (setOwn_ne_nil _ _ _ h))))

lemma bindIter_getVar (name : String) (v k : JsVal) (last : Bool) (σ : Scope)
    (hσ : σ ≠ []) :
    getVar (bindIter name v k last σ) name = v ∧
    getVar (bindIter name v k last σ) (name ++ "_key") = k ∧
    getVar (bindIter name v k last σ) (name ++ "_index") = k ∧
    getVar (bindIter name v k last σ) (name ++ "_last") = .bool last ∧
    getVar (bindIter name v k last σ) (name ++ "_has_next") = .bool !last := by
  have h1 := setOwn_ne_nil σ name v hσ
  have h2 := setOwn_ne_nil _ (name ++ "_key") k h1
  have h3 := setOwn_ne_nil _ (name ++ "_index") k h2
  have h4 := setOwn_ne_nil _ (name ++ "_last") (JsVal.bool last) h3
  unfold bindIter
  refine ⟨?_, ?_, ?_, ?_, ?_⟩
  · rw [getVar_setOwn_ne _ _ _ _ (name_ne_append name "_has_next" (by decide)),
      getVar_setOwn_ne _ _ _ _ (name_ne_append name "_last" (by decide)),
      getVar_setOwn_ne _ _ _ _ (name_ne_append name "_index" (by decide)),
      getVar_setOwn_ne _ _ _ _ (name_ne_append name "_key" (by decide)),
      getVar_setOwn_self _ _ _ hσ]
  · rw [getVar_setOwn_ne _ _ _ _ (str_append_ne name "_key" "_has_next" (by decide)),
      getVar_setOwn_ne _ _ _ _ (str_append_ne name "_key" "_last" (by decide)),
      getVar_setOwn_ne _ _ _ _ (str_append_ne name "_key" "_index" (by decide)),
      getVar_setOwn_self _ _ _ h1]
  · rw [getVar_setOwn_ne _ _ _ _ (str_append_ne name "_index" "_has_next" (by decide)),
      getVar_setOwn_ne _ _ _ _ (str_append_ne name "_index" "_last" (by decide)),
      getVar_setOwn_self _ _ _ h2]
  · rw [getVar_setOwn_ne _ _ _ _ (str_append_ne name "_last" "_has_next" (by decide)),
      getVar_setOwn_self _ _ _ h3]
  · rw [getVar_setOwn_self _ _ _ h4]

/-- The sequence of scopes handed to the callback by the array branch of
`each`, starting at index `i` with caller scope `σ`. -/
def arrScopes (name : String) (n : Nat) : Nat → List JsVal → Scope → List Scope
  | _, [], _ => []
  | i, v :: vs, σ =>
    let σ' := bindIter name v (.num i) (decide (i = n - 1)) σ
    childScope σ' :: arrScopes name n (i + 1) vs σ'

/-- The caller scope after the array branch of `each` finishes. -/
def arrFinal (name : String) (n : Nat) : Nat → List JsVal → Scope → Scope
  | _, [], σ => σ
  | i, v :: vs, σ =>
    arrFinal name n (i + 1) vs (bindIter name v (.num i) (decide (i = n - 1)) σ)

lemma eachArr_collect (name : String) (n : Nat) :
    ∀ (xs : List JsVal) (i : Nat) (σ : Scope) (acc : List Scope),
    eachArr name n (fun s a => .ok (a ++ [s])) i xs σ acc =
      .ok (arrFinal name n i xs σ, acc ++ arrScopes name n i xs σ) := by
  intro xs
  induction xs with
  | nil => intro i σ acc; simp [eachArr, arrScopes, arrFinal]
  | cons v vs ih =>
    intro i σ acc
    simp only [eachArr, arrScopes, arrFinal, except_bind_ok, ih,
      List.append_assoc, List.singleton_append]

lemma arrScopes_length (name : String) (n : Nat) :
    ∀ (xs : List JsVal) (i : Nat) (σ : Scope),
    (arrScopes name n i xs σ).length = xs.length := by
  intro xs
  induction xs with
  | nil => intro i σ; rfl
  | cons v vs ih => intro i σ; simp [arrScopes, ih]

lemma arrScopes_get (name : String) (n : Nat) :
    ∀ (xs : List JsVal) (i : Nat) (σ : Scope), σ ≠ [] →
    ∀ (j : Nat) (hj : j < xs.length)
      (hj' : j < (arrScopes name n i xs σ).length),
    getVar ((arrScopes name n i xs σ).get ⟨j, hj'⟩) name = xs.get ⟨j, hj⟩ ∧
    getVar ((arrScopes name n i xs σ).get ⟨j, hj'⟩) (name ++ "_index") =
      .num (i + j) ∧
    getVar ((arrScopes name n i xs σ).get ⟨j, hj'⟩) (name ++ "_key") =
      .num (i + j) ∧
    getVar ((arrScopes name n i xs σ).get ⟨j, hj'⟩) (name ++ "_last") =
      .bool (decide (i + j = n - 1)) ∧
    getVar ((arrScopes name n i xs σ).get ⟨j, hj'⟩) (name ++ "_has_next") =
      .bool (!decide (i + j = n - 1)) := by
  intro xs
  induction xs with
  | nil => intro i σ hσ j hj; exact absurd hj (by simp)
  | cons v vs ih =>
    intro i σ hσ j hj hj'
    match j with
    | 0 =>
      obtain ⟨b1, b2, b3, b4, b5⟩ :=
        bindIter_getVar name v (.num i) (decide (i = n - 1)) σ hσ
      simp only [arrScopes, List.get]
      rw [getVar_childScope, getVar_childScope, getVar_childScope,
        getVar_childScope, getVar_childScope]
      exact ⟨b1, by simpa using b3, by simpa using b2,
        by simpa using b4, by simpa using b5⟩
    | j + 1 =>
      have hmem : j < vs.length := by simpa using hj
      have hmem' :
          j < (arrScopes name n (i + 1) vs
            (bindIter name v (.num i) (decide (i = n - 1)) σ)).length := by
        rw [arrScopes_length]; exact hmem
      have harith : i + 1 + j = i + (j + 1) := by omega
      have hrec := ih (i + 1)
        (bindIter name v (.num i) (decide (i = n - 1)) σ)
        (bindIter_ne_nil name v (.num i) (decide (i = n - 1)) σ hσ)
        j hmem hmem'
      rw [harith] at hrec
      rw [show ((i + 1 : Nat) : Int) + (j : Int) = ((i : Nat) : Int) + ((j + 1 : Nat) : Int)
        from by push_cast; ring] at hrec
      simp only [arrScopes, List.get]
      exact hrec

/-- The sequence of scopes handed to the callback by the keyed-mapping
branch of `each`, iterating the key list `l` (a suffix of the full sorted
list `ks`). -/
def objScopes (name : String) (fields : List (String × JsVal))
    (ks : List String) : List String → Scope → List Scope
  | [], _ => []
  | k :: rest, σ =>
    let σ' := bindIter name (objGet fields k) (.str k)
      (decide (ks.getLast? = some k)) σ
    childScope σ' :: objScopes name fields ks rest σ'

/-- The caller scope after the keyed-mapping branch of `each` finishes. -/
def objFinal (name : String) (fields : List (String × JsVal))
    (ks : List String) : List String → Scope → Scope
  | [], σ => σ
  | k :: rest, σ =>
    objFinal name fields ks rest
      (bindIter name (objGet fields k) (.str k)
        (decide (ks.getLast? = some k)) σ)

lemma eachObj_collect (name : String) (fields : List (String × JsVal))
    (ks : List String) :
    ∀ (l : List String) (σ : Scope) (acc : List Scope),
    eachObj name fields ks (fun s a => .ok (a ++ [s])) l σ acc =
      .ok (objFinal name fields ks l σ, acc ++ objScopes name fields ks l σ) := by
  intro l
  induction l with
  | nil => intro σ acc; simp [eachObj, objScopes, objFinal]
  | cons k rest ih =>
    intro σ acc
    simp only [eachObj, objScopes, objFinal, except_bind_ok, ih,
      List.append_assoc, List.singleton_append]

lemma objScopes_length (name : String) (fields : List (String × JsVal))
    (ks : List String) :
    ∀ (l : List String) (σ : Scope),
    (objScopes name fields ks l σ).length = l.length := by
  intro l
  induction l with
  | nil => intro σ; rfl
  | cons k rest ih => intro σ; simp [objScopes, ih]

lemma objScopes_get (name : String) (fields : List (String × JsVal))
    (ks : List String) :
    ∀ (l : List String) (σ : Scope), σ ≠ [] →
    ∀ (j : Nat) (hj : j < l.length)
      (hj' : j < (objScopes name fields ks l σ).length),
    getVar ((objScopes name fields ks l σ).get ⟨j, hj'⟩) name =
      objGet fields (l.get ⟨j, hj⟩) ∧
    getVar ((objScopes name fields ks l σ).get ⟨j, hj'⟩) (name ++ "_key") =
      .str (l.get ⟨j, hj⟩) ∧
    getVar ((objScopes name fields ks l σ).get ⟨j, hj'⟩) (name ++ "_index") =
      .str (l.get ⟨j, hj⟩) ∧
    getVar ((objScopes name fields ks l σ).get ⟨j, hj'⟩) (name ++ "_last") =
      .bool (decide (ks.getLast? = some (l.get ⟨j, hj⟩))) ∧
    getVar ((objScopes name fields ks l σ).get ⟨j, hj'⟩) (name ++ "_has_next") =
      .bool (!decide (ks.getLast? = some (l.get ⟨j, hj⟩))) := by
  intro l
  induction l with
  | nil => intro σ hσ j hj; exact absurd hj (by simp)
  | cons k rest ih =>
    intro σ hσ j hj hj'
    match j with
    | 0 =>
      obtain ⟨b1, b2, b3, b4, b5⟩ := bindIter_getVar name (objGet fields k)
        (.str k) (decide (ks.getLast? = some k)) σ hσ
      simp only [objScopes, List.get]
      rw [getVar_childScope, getVar_childScope, getVar_childScope,
        getVar_childScope, getVar_childScope]
      exact ⟨b1, b2, b3, b4, b5⟩
    | j + 1 =>
      have hmem : j < rest.length := by simpa using hj
      have hmem' :
          j < (objScopes name fields ks rest
            (bindIter name (objGet fields k) (.str k)
              (decide (ks.getLast? = some k)) σ)).length := by
        rw [objScopes_length]; exact hmem
      have hrec := ih
        (bindIter name (objGet fields k) (.str k)
          (decide (ks.getLast? = some k)) σ)
        (bindIter_ne_nil name (objGet fields k) (.str k)
          (decide (ks.getLast? = some k)) σ hσ)
        j hmem hmem'
      simp only [objScopes, List.get]
      exact hrec

lemma getLastOptEqGetIff (l : List String) (hnd : l.Nodup) (j : Nat)
    (hj : j < l.length) :
    (l.getLast? = some (l.get ⟨j, hj⟩)) ↔ j = l.length - 1 := by
  have hne : l ≠ [] := by intro h; subst h; simp at hj
  rw [List.getLast?_eq_getLast l hne, List.getLast_eq_get l hne,
    Option.some_inj, hnd.get_inj_iff, Fin.mk_eq_mk]
  omega

/-! ## C7: iteration order and per-element bindings of `each` -/

/-- C7: the `each` primitive iterates arrays in natural index order, handing
the callback a fresh child scope binding `name` to the element,
`name_index` and `name_key` to the index, `name_last` to whether the index
is the final one and `name_has_next` to its negation; and it iterates keyed
mappings over their keys sorted in ascending code-point (lexicographic)
order, binding `name_key` to the key and `name_last` exactly on the last
sorted key. -/
theorem c7_each_iteration :
    (∀ (xs : List JsVal) (name : String) (σ : Scope) (σfin : Scope)
       (outs : List Scope), σ ≠ [] →
       jsEach (JsVal.arr xs) name σ []
         (fun s a => .ok (a ++ [s])) = .ok (σfin, outs) →
       outs.length = xs.length ∧
       ∀ (i : Nat) (hx : i < xs.length) (ho : i < outs.length),
         getVar (outs.get ⟨i, ho⟩) name = xs.get ⟨i, hx⟩ ∧
         getVar (outs.get ⟨i, ho⟩) (name ++ "_index") = .num i ∧
         getVar (outs.get ⟨i, ho⟩) (name ++ "_key") = .num i ∧
         getVar (outs.get ⟨i, ho⟩) (name ++ "_last") =
           .bool (decide (i = xs.length - 1)) ∧
         getVar (outs.get ⟨i, ho⟩) (name ++ "_has_next") =
           .bool (!decide (i = xs.length - 1))) ∧
    (∀ (fields : List (String × JsVal)) (name : String) (σ : Scope)
       (σfin : Scope) (outs : List Scope), σ ≠ [] →
       (fields.map Prod.fst).Nodup →
       jsEach (JsVal.obj fields) name σ []
         (fun s a => .ok (a ++ [s])) = .ok (σfin, outs) →
       outs.length = (sortKeys (fields.map Prod.fst)).length ∧
       (sortKeys (fields.map Prod.fst)).Perm (fields.map Prod.fst) ∧
       (sortKeys (fields.map Prod.fst)).Sorted (· < ·) ∧
       ∀ (i : Nat) (hk : i < (sortKeys (fields.map Prod.fst)).length)
         (ho : i < outs.length),
         getVar (outs.get ⟨i, ho⟩) name =
           objGet fields ((sortKeys (fields.map Prod.fst)).get ⟨i, hk⟩) ∧
         getVar (outs.get ⟨i, ho⟩) (name ++ "_key") =
           .str ((sortKeys (fields.map Prod.fst)).get ⟨i, hk⟩) ∧
         getVar (outs.get ⟨i, ho⟩) (name ++ "_last") =
           .bool (decide (i = (sortKeys (fields.map Prod.fst)).length - 1))) := by
  constructor
  · intro xs name σ σfin outs hσ h
    rw [show jsEach (JsVal.arr xs) name σ []
        (fun s a => Except.ok (a ++ [s])) =
        eachArr name xs.length (fun s a => Except.ok (a ++ [s])) 0 xs σ []
      from rfl, eachArr_collect] at h
    injection h with h
    injection h with h1 h2
    subst h2
    refine ⟨by simp [arrScopes_length], fun i hx ho => ?_⟩
    have := arrScopes_get name xs.length xs 0 σ hσ i hx ho
    simpa using this
  · intro fields name σ σfin outs hσ hnd h
    rw [show jsEach (JsVal.obj fields) name σ []
        (fun s a => Except.ok (a ++ [s])) =
        eachObj name fields (sortKeys (fields.map Prod.fst))
          (fun s a => Except.ok (a ++ [s]))
          (sortKeys (fields.map Prod.fst)) σ []
      from rfl, eachObj_collect] at h
    injection h with h
    injection h with h1 h2
    subst h2
    simp only [List.nil_append]
    have hperm : (sortKeys (fields.map Prod.fst)).Perm (fields.map Prod.fst) :=
      List.perm_insertionSort _ _
    have hndks : (sortKeys (fields.map Prod.fst)).Nodup :=
      hperm.nodup_iff.mpr hnd
    have hsorted : (sortKeys (fields.map Prod.fst)).Sorted (· ≤ ·) :=
      List.sorted_insertionSort _ _
    refine ⟨by simp [objScopes_length], hperm, hsorted.lt_of_le hndks,
      fun i hk ho => ?_⟩
    have hget := objScopes_get name fields (sortKeys (fields.map Prod.fst))
      (sortKeys (fields.map Prod.fst)) σ hσ i hk ho
    refine ⟨by simpa using hget.1, by simpa using hget.2.1, ?_⟩
    have hlast := hget.2.2.2.1
    rw [hlast]
    exact congrArg JsVal.bool (decide_eq_decide.mpr
      (getLastOptEqGetIff _ hndks i hk))

/-- Witness for C7 at concrete inputs: a one-element array binds the value
at index `0` (which is also the last index), and a two-field mapping is
iterated with `"a"` as its first (sorted) key. -/
theorem c7_each_iteration_witness :
    getVar ((arrScopes "u" 1 0 [JsVal.num 5] [[]]).get ⟨0, by decide⟩) "u" =
      JsVal.num 5 ∧
    getVar ((objScopes "u" [("a", JsVal.num 1)]
        (sortKeys ["a"]) (sortKeys ["a"]) [[]]).get ⟨0, by decide⟩)
      ("u" ++ "_key") = JsVal.str "a" :=
  ⟨((c7_each_iteration.1 [JsVal.num 5] "u" [[]] _ _
      (List.cons_ne_nil _ _) rfl).2 0 (by decide) (by decide)).1,
   (((c7_each_iteration.2 [("a", JsVal.num 1)] "u" [[]] _ _
      (List.cons_ne_nil _ _) (by decide) rfl).2.2.2 0 (by decide)
        (by decide)).2.1)⟩

/-! ## Normalization is idempotent (towards C8) -/

lemma splitSlash_no_slash (s : List Char) (h : '/' ∉ s) :
    splitSlash s = [s] := by
  induction s with
  | nil => rfl
  | cons c rest ih =>
    have hc : c ≠ '/' := fun hc => h (by simp [hc])
    have hr : '/' ∉ rest := fun hr => h (by simp [hr])
    simp only [splitSlash, if_neg hc, ih hr]

lemma splitSlash_ne_nil (x : List Char) : splitSlash x ≠ [] := by
  induction x with
  | nil => simp [splitSlash]
  | cons d ds ihd =>
    simp only [splitSlash]
    by_cases hd : d = '/'
    · simp [hd]
    · simp only [if_neg hd]
      cases splitSlash ds <;> simp

lemma splitSlash_append_slash (a b : List Char) (h : '/' ∉ a) :
    splitSlash (a ++ '/' :: b) = a :: splitSlash b := by
  induction a with
  | nil => simp [splitSlash]
  | cons c rest ih =>
    have hc : c ≠ '/' := fun hc => h (by simp [hc])
    have hr : '/' ∉ rest := fun hr => h (by simp [hr])
    simp only [List.cons_append, splitSlash, List.append_eq, if_neg hc]
    rw [ih hr]

lemma splitSlash_joinSegs (segs : List (List Char)) (hne : segs ≠ [])
    (h : ∀ s ∈ segs, '/' ∉ s) :
    splitSlash (joinSegs segs) = segs := by
  induction segs with
  | nil => exact absurd rfl hne
  | cons s rest ih =>
    cases rest with
    | nil => exact splitSlash_no_slash s (h s (by simp))
    | cons t ts =>
      have hs : '/' ∉ s := h s (by simp)
      rw [show joinSegs (s :: t :: ts) = s ++ '/' :: joinSegs (t :: ts) from rfl,
        splitSlash_append_slash _ _ hs,
        ih (by simp) (fun x hx => h x (by simp [hx]))]

lemma splitSlash_append_trailing (x : List Char) :
    splitSlash (x ++ ['/']) = splitSlash x ++ [[]] := by
  induction x with
  | nil => rfl
  | cons c rest ih =>
    by_cases hc : c = '/'
    · subst hc
      simp [splitSlash, ih]
    · simp only [List.cons_append, splitSlash, List.append_eq, if_neg hc]
      rw [ih]
      cases hr : splitSlash rest with
      | nil => exact absurd hr (splitSlash_ne_nil rest)
      | cons u us => simp

lemma joinSegs_ne_nil (segs : List (List Char)) (hne : segs ≠ [])
    (h : ∀ s ∈ segs, s ≠ []) : joinSegs segs ≠ [] := by
  cases segs with
  | nil => exact absurd rfl hne
  | cons s rest =>
    cases rest with
    | nil => exact h s (by simp)
    | cons t ts =>
      rw [show joinSegs (s :: t :: ts) = s ++ '/' :: joinSegs (t :: ts) from rfl]
      cases hs : s with
      | nil => exact absurd hs (h s (by simp))
      | cons c cs => simp

lemma joinSegsHeadOpt (segs : List (List Char)) (hne : segs ≠ [])
    (h : ∀ s ∈ segs, s ≠ []) :
    (joinSegs segs).head? = (segs.head hne).head? := by
  cases segs with
  | nil => exact absurd rfl hne
  | cons s rest =>
    cases rest with
    | nil => rfl
    | cons t ts =>
      rw [show joinSegs (s :: t :: ts) = s ++ '/' :: joinSegs (t :: ts) from rfl,
        show (s :: t :: ts).head hne = s from rfl]
      have hs := h s (by simp)
      cases s with
      | nil => exact absurd rfl hs
      | cons c cs => simp

lemma joinSegsGetLastOpt (segs : List (List Char)) (hne : segs ≠ [])
    (h : ∀ s ∈ segs, s ≠ []) :
    (joinSegs segs).getLast? = (segs.getLast hne).getLast? := by
  induction segs with
  | nil => exact absurd rfl hne
  | cons s rest ih =>
    cases rest with
    | nil => rfl
    | cons t ts =>
      rw [show joinSegs (s :: t :: ts) = s ++ '/' :: joinSegs (t :: ts) from rfl]
      rw [List.getLast?_append_of_ne_nil s
        (by simp : ('/' :: joinSegs (t :: ts)) ≠ [])]
      have hjn : joinSegs (t :: ts) ≠ [] :=
        joinSegs_ne_nil _ (by simp) (fun x hx => h x (by simp [hx]))
      cases hj : joinSegs (t :: ts) with
      | nil => exact absurd hj hjn
      | cons u us =>
        rw [List.getLast?_cons_cons, ← hj,
          show (s :: t :: ts).getLast hne = (t :: ts).getLast (by simp)
            from List.getLast_cons (by simp),
          ih (by simp) (fun x hx => h x (by simp [hx]))]

/-- A segment that segment resolution passes through unchanged: nonempty,
not `.`, not `..`, and slash-free. -/
def plainSeg (s : List Char) : Prop :=
  s ≠ [] ∧ s ≠ ['.'] ∧ s ≠ ['.', '.'] ∧ '/' ∉ s

lemma normStep_nil_seg (allow : Bool) (acc : List (List Char)) :
    normStep allow acc [] = acc := by simp [normStep]

lemma normStep_plain (allow : Bool) (acc : List (List Char)) (s : List Char)
    (h : plainSeg s) : normStep allow acc s = s :: acc := by
  obtain ⟨h1, h2, h3, _⟩ := h
  simp [normStep, h1, h2, h3]

lemma normStep_dots_nil (allow : Bool) :
    normStep allow [] ['.', '.'] = if allow then [['.', '.']] else [] := by
  simp [normStep]

lemma normStep_dots_dots (allow : Bool) (acc : List (List Char)) :
    normStep allow (['.', '.'] :: acc) ['.', '.'] =
      if allow then ['.', '.'] :: ['.', '.'] :: acc else ['.', '.'] :: acc := by
  simp [normStep]

lemma normStep_dots_top (allow : Bool) (top : List Char)
    (acc : List (List Char)) (h : top ≠ ['.', '.']) :
    normStep allow (top :: acc) ['.', '.'] = acc := by
  simp [normStep, h]

lemma splitSlash_mem_no_slash (p : List Char) :
    ∀ s ∈ splitSlash p, '/' ∉ s := by
  induction p with
  | nil => intro s hs; simp [splitSlash] at hs; simp [hs]
  | cons c rest ih =>
    intro s hs
    by_cases hc : c = '/'
    · subst hc
      have hsplit : splitSlash ('/' :: rest) = [] :: splitSlash rest := rfl
      rw [hsplit] at hs
      rcases List.mem_cons.mp hs with rfl | hs2
      · simp
      · exact ih s hs2
    · obtain ⟨u, us, hr⟩ : ∃ u us, splitSlash rest = u :: us := by
        cases h' : splitSlash rest with
        | nil => exact absurd h' (splitSlash_ne_nil rest)
        | cons u us => exact ⟨u, us, rfl⟩
      have hsplit : splitSlash (c :: rest) = (c :: u) :: us := by
        simp only [splitSlash, if_neg hc, hr]
      rw [hsplit] at hs
      rcases List.mem_cons.mp hs with rfl | hs2
      · intro hmem
        rcases List.mem_cons.mp hmem with heq | hmem2
        · exact hc heq.symm
        · exact ih u (by simp [hr]) hmem2
      · exact ih s (by simp [hr, hs2])

lemma foldl_normStep_shape (allow : Bool) :
    ∀ (segs : List (List Char)) (front : List (List Char)) (k : Nat),
    (∀ s ∈ front, plainSeg s) → (allow = false → k = 0) →
    (∀ s ∈ segs, '/' ∉ s) →
    ∃ front' k', (∀ s ∈ front', plainSeg s) ∧ (allow = false → k' = 0) ∧
      segs.foldl (normStep allow) (front ++ List.replicate k ['.', '.']) =
        front' ++ List.replicate k' ['.', '.'] := by
  intro segs
  induction segs with
  | nil => intro front k hf hk _; exact ⟨front, k, hf, hk, rfl⟩
  | cons seg rest ih =>
    intro front k hf hk hs
    have hseg : '/' ∉ seg := hs seg (by simp)
    have hrest : ∀ s ∈ rest, '/' ∉ s := fun s h => hs s (by simp [h])
    rw [List.foldl_cons]
    by_cases h1 : seg = [] ∨ seg = ['.']
    · rw [show normStep allow (front ++ List.replicate k ['.', '.']) seg =
          front ++ List.replicate k ['.', '.'] from by simp [normStep, if_pos h1]]
      exact ih front k hf hk hrest
    · by_cases h2 : seg = ['.', '.']
      · subst h2
        cases front with
        | nil =>
          cases k with
          | zero =>
            simp only [List.nil_append, List.replicate]
            rw [normStep_dots_nil]
            by_cases ha : allow = true
            · rw [if_pos ha]
              have := ih [] 1 (by simp) (fun hc => absurd hc (by simp [ha])) hrest
              simpa using this
            · rw [if_neg ha]
              have := ih [] 0 (by simp) (fun _ => rfl) hrest
              simpa using this
          | succ k0 =>
            have ha : allow = true := by
              cases allow
              · exact absurd (hk rfl) (Nat.succ_ne_zero k0)
              · rfl
            rw [List.nil_append, List.replicate_succ, normStep_dots_dots,
              if_pos ha]
            have := ih [] (k0 + 2) (by simp) (fun hc => absurd hc (by simp [ha])) hrest
            simp only [List.nil_append, List.replicate_succ] at this
            simpa using this
        | cons f fs =>
          have hfp := hf f (by simp)
          rw [List.cons_append, normStep_dots_top _ _ _ hfp.2.2.1]
          exact ih fs k (fun s h => hf s (by simp [h])) hk hrest
      · have hplain : plainSeg seg :=
          ⟨(not_or.mp h1).1, (not_or.mp h1).2, h2, hseg⟩
        rw [normStep_plain _ _ _ hplain, ← List.cons_append]
        exact ih (seg :: front) k
          (fun s h => by
            rcases List.mem_cons.mp h with rfl | h
            · exact hplain
            · exact hf s h)
          hk hrest

lemma normSegs_shape (allow : Bool) (p : List Char) :
    ∃ k plains, normSegs allow (splitSlash p) =
        List.replicate k ['.', '.'] ++ plains ∧
      (∀ s ∈ plains, plainSeg s) ∧ (allow = false → k = 0) := by
  obtain ⟨front', k', hf, hk, heq⟩ :=
    foldl_normStep_shape allow (splitSlash p) [] 0 (by simp) (fun _ => rfl)
      (splitSlash_mem_no_slash p)
  refine ⟨k', front'.reverse, ?_, ?_, hk⟩
  · unfold normSegs
    simp only [List.nil_append, List.replicate] at heq
    rw [heq, List.reverse_append, List.reverse_replicate]
  · intro s hs
    exact hf s (List.mem_reverse.mp hs)

lemma foldl_normStep_dots (k : Nat) :
    ∀ m : Nat, (List.replicate k (['.', '.'] : List Char)).foldl
      (normStep true) (List.replicate m ['.', '.']) =
      List.replicate (m + k) ['.', '.'] := by
  induction k with
  | zero => intro m; simp
  | succ k0 ih =>
    intro m
    rw [List.replicate_succ, List.foldl_cons]
    cases m with
    | zero =>
      rw [show List.replicate 0 (['.', '.'] : List Char) = [] from rfl,
        normStep_dots_nil, if_pos rfl,
        show [(['.', '.'] : List Char)] = List.replicate 1 ['.', '.'] from rfl,
        ih 1]
      congr 1
      omega
    | succ m0 =>
      rw [List.replicate_succ, normStep_dots_dots, if_pos rfl,
        show (['.', '.'] : List Char) :: ['.', '.'] :: List.replicate m0 ['.', '.'] =
          List.replicate (m0 + 2) ['.', '.'] from by
            rw [List.replicate_succ, List.replicate_succ],
        ih (m0 + 2)]
      congr 1
      omega

lemma foldl_normStep_plains (allow : Bool) (plains : List (List Char))
    (h : ∀ s ∈ plains, plainSeg s) :
    ∀ acc, plains.foldl (normStep allow) acc = plains.reverse ++ acc := by
  induction plains with
  | nil => intro acc; simp
  | cons q qs ih =>
    intro acc
    rw [List.foldl_cons, normStep_plain _ _ _ (h q (by simp)),
      ih (fun s hs => h s (by simp [hs])), List.reverse_cons, List.append_assoc]
    simp

lemma refold_normStep (allow : Bool) (k : Nat) (plains : List (List Char))
    (hp : ∀ s ∈ plains, plainSeg s) (hk : allow = false → k = 0) :
    (List.replicate k ['.', '.'] ++ plains).foldl (normStep allow) [] =
      plains.reverse ++ List.replicate k ['.', '.'] := by
  rw [List.foldl_append]
  have hdots : (List.replicate k (['.', '.'] : List Char)).foldl
      (normStep allow) [] = List.replicate k ['.', '.'] := by
    cases allow with
    | false =>
      rw [hk rfl]
      simp
    | true =>
      have := foldl_normStep_dots k 0
      simpa using this
  rw [hdots, foldl_normStep_plains allow plains hp]

/-- The output-assembly step of `pathNormalize`, split out for reasoning. -/
def rebuild (isAbs trailing : Bool) (segs : List (List Char)) : List Char :=
  match segs with
  | [] => if isAbs then ['/'] else if trailing then ['.', '/'] else ['.']
  | segs =>
    let body := joinSegs segs
    let body := if trailing then body ++ ['/'] else body
    if isAbs then '/' :: body else body

lemma normChars_eq (p : List Char) (hp : p ≠ []) :
    normChars p = rebuild (p.head? == some '/') (p.getLast? == some '/')
      (normSegs (!(p.head? == some '/')) (splitSlash p)) := by
  unfold normChars rebuild
  rw [if_neg hp]

lemma foldl_skip_nil_head (allow : Bool) (acc : List (List Char))
    (l : List (List Char)) :
    ([] :: l).foldl (normStep allow) acc = l.foldl (normStep allow) acc := by
  rw [List.foldl_cons, normStep_nil_seg]

lemma foldl_skip_nil_tail (allow : Bool) (acc : List (List Char))
    (l : List (List Char)) :
    (l ++ [[]]).foldl (normStep allow) acc = l.foldl (normStep allow) acc := by
  rw [List.foldl_append]
  simp [normStep_nil_seg]

lemma headOptAppendLeft {α : Type} (l x : List α) (h : l ≠ []) :
    (l ++ x).head? = l.head? := by
  cases l with
  | nil => exact absurd rfl h
  | cons c cs => simp

lemma getLastOptConsOfNe {α : Type} (c : α) (x : List α) (h : x ≠ []) :
    (c :: x).getLast? = x.getLast? := by
  cases x with
  | nil => exact absurd rfl h
  | cons d ds => exact List.getLast?_cons_cons

lemma normChars_canonical (a t : Bool) (s₀ : List Char) (rest : List (List Char))
    (helem : ∀ s ∈ s₀ :: rest, s ≠ [] ∧ '/' ∉ s)
    (hfold : (s₀ :: rest).foldl (normStep (!a)) [] = (s₀ :: rest).reverse) :
    normChars (rebuild a t (s₀ :: rest)) = rebuild a t (s₀ :: rest) := by
  have hne_all : ∀ s ∈ s₀ :: rest, s ≠ [] := fun s hs => (helem s hs).1
  have hns_all : ∀ s ∈ s₀ :: rest, '/' ∉ s := fun s hs => (helem s hs).2
  have hJne : joinSegs (s₀ :: rest) ≠ [] :=
    joinSegs_ne_nil _ (by simp) hne_all
  have hJsplit : splitSlash (joinSegs (s₀ :: rest)) = s₀ :: rest :=
    splitSlash_joinSegs _ (by simp) hns_all
  have hJhead : (joinSegs (s₀ :: rest)).head? = s₀.head? :=
    joinSegsHeadOpt _ (by simp) hne_all
  have hlast_ne : (joinSegs (s₀ :: rest)).getLast? ≠ some '/' := by
    rw [joinSegsGetLastOpt _ (by simp) hne_all]
    have hsl_mem : (s₀ :: rest).getLast (by simp) ∈ s₀ :: rest :=
      List.getLast_mem _
    have hsl_ne := (helem _ hsl_mem).1
    have hsl_ns := (helem _ hsl_mem).2
    rw [List.getLast?_eq_getLast _ hsl_ne]
    intro hcon
    have : '/' ∈ (s₀ :: rest).getLast (by simp) := by
      rw [← Option.some_inj.mp hcon]
      exact List.getLast_mem hsl_ne
    exact hsl_ns this
  obtain ⟨c₀, s₀tl, rfl⟩ : ∃ c cs, s₀ = c :: cs := by
    cases hs : s₀ with
    | nil => exact absurd hs (hne_all s₀ (by simp))
    | cons c cs => exact ⟨c, cs, rfl⟩
  have hc₀ : c₀ ≠ '/' := by
    intro h
    exact hns_all (c₀ :: s₀tl) (by simp) (by simp [h])
  cases a with
  | false =>
    simp only [Bool.not_false] at hfold
    cases t with
    | false =>
      rw [show rebuild false false ((c₀ :: s₀tl) :: rest) =
        joinSegs ((c₀ :: s₀tl) :: rest) from rfl]
      rw [normChars_eq _ hJne]
      have ha' : ((joinSegs ((c₀ :: s₀tl) :: rest)).head? == some '/') = false := by
        rw [hJhead]
        simp [hc₀]
      have ht' : ((joinSegs ((c₀ :: s₀tl) :: rest)).getLast? == some '/') = false := by
        rw [beq_eq_false_iff_ne]
        exact hlast_ne
      rw [ha', ht', hJsplit]
      rw [show normSegs (!false) ((c₀ :: s₀tl) :: rest) = (c₀ :: s₀tl) :: rest from by
        unfold normSegs
        simp only [Bool.not_false]
        rw [hfold, List.reverse_reverse]]
      rfl
    | true =>
      rw [show rebuild false true ((c₀ :: s₀tl) :: rest) =
        joinSegs ((c₀ :: s₀tl) :: rest) ++ ['/'] from rfl]
      rw [normChars_eq _ (by simp)]
      have ha' : ((joinSegs ((c₀ :: s₀tl) :: rest) ++ ['/']).head? == some '/') = false := by
        rw [headOptAppendLeft _ _ hJne, hJhead]
        simp [hc₀]
      have ht' : ((joinSegs ((c₀ :: s₀tl) :: rest) ++ ['/']).getLast? == some '/') = true := by
        rw [List.getLast?_concat]
        simp
      rw [ha', ht', splitSlash_append_trailing, hJsplit]
      rw [show normSegs (!false) ((c₀ :: s₀tl) :: rest ++ [[]]) =
          (c₀ :: s₀tl) :: rest from by
        unfold normSegs
        simp only [Bool.not_false]
        rw [foldl_skip_nil_tail, hfold, List.reverse_reverse]]
      rfl
  | true =>
    simp only [Bool.not_true] at hfold
    cases t with
    | false =>
      rw [show rebuild true false ((c₀ :: s₀tl) :: rest) =
        '/' :: joinSegs ((c₀ :: s₀tl) :: rest) from rfl]
      rw [normChars_eq _ (by simp)]
      have ha' : (('/' :: joinSegs ((c₀ :: s₀tl) :: rest)).head? == some '/') = true := by
        simp
      have ht' : (('/' :: joinSegs ((c₀ :: s₀tl) :: rest)).getLast? == some '/') = false := by
        rw [getLastOptConsOfNe _ _ hJne, beq_eq_false_iff_ne]
        exact hlast_ne
      rw [ha', ht']
      rw [show splitSlash ('/' :: joinSegs ((c₀ :: s₀tl) :: rest)) =
        [] :: splitSlash (joinSegs ((c₀ :: s₀tl) :: rest)) from rfl]
      rw [hJsplit]
      rw [show normSegs (!true) ([] :: (c₀ :: s₀tl) :: rest) =
          (c₀ :: s₀tl) :: rest from by
        unfold normSegs
        simp only [Bool.not_true]
        rw [foldl_skip_nil_head, hfold, List.reverse_reverse]]
      rfl
    | true =>
      rw [show rebuild true true ((c₀ :: s₀tl) :: rest) =
        '/' :: (joinSegs ((c₀ :: s₀tl) :: rest) ++ ['/']) from rfl]
      rw [normChars_eq _ (by simp)]
      have ha' : (('/' :: (joinSegs ((c₀ :: s₀tl) :: rest) ++ ['/'])).head? == some '/') = true := by
        simp
      have ht' : (('/' :: (joinSegs ((c₀ :: s₀tl) :: rest) ++ ['/'])).getLast? == some '/') = true := by
        rw [getLastOptConsOfNe _ _ (by simp), List.getLast?_concat]
        simp
      rw [ha', ht']
      rw [show splitSlash ('/' :: (joinSegs ((c₀ :: s₀tl) :: rest) ++ ['/'])) =
        [] :: splitSlash (joinSegs ((c₀ :: s₀tl) :: rest) ++ ['/']) from rfl]
      rw [splitSlash_append_trailing, hJsplit]
      rw [show normSegs (!true) ([] :: ((c₀ :: s₀tl) :: rest ++ [[]])) =
          (c₀ :: s₀tl) :: rest from by
        unfold normSegs
        simp only [Bool.not_true]
        rw [foldl_skip_nil_head, foldl_skip_nil_tail, hfold, List.reverse_reverse]]
      rfl

lemma normChars_rebuild (a t : Bool) (k : Nat) (plains : List (List Char))
    (hplains : ∀ s ∈ plains, plainSeg s) (hka : a = true → k = 0) :
    normChars (rebuild a t (List.replicate k ['.', '.'] ++ plains)) =
      rebuild a t (List.replicate k ['.', '.'] ++ plains) := by
  cases hcons : List.replicate k (['.', '.'] : List Char) ++ plains with
  | nil =>
    cases a <;> cases t <;> simp only [rebuild] <;> decide
  | cons s₀ rest =>
    have helem : ∀ s ∈ s₀ :: rest, s ≠ [] ∧ '/' ∉ s := by
      rw [← hcons]
      intro s hs
      rcases List.mem_append.mp hs with h | h
      · rw [List.eq_of_mem_replicate h]
        exact ⟨by simp, by decide⟩
      · exact ⟨(hplains s h).1, (hplains s h).2.2.2⟩
    have hkneg : (!a) = false → k = 0 := by
      cases a
      · intro hf; exact absurd hf (by simp)
      · intro _; exact hka rfl
    have hfold : (s₀ :: rest).foldl (normStep (!a)) [] = (s₀ :: rest).reverse := by
      rw [← hcons, refold_normStep (!a) k plains hplains hkneg,
        List.reverse_append, List.reverse_replicate]
    exact normChars_canonical a t s₀ rest helem hfold

/-- `path.normalize` is idempotent. -/
theorem normChars_idem (p : List Char) : normChars (normChars p) = normChars p := by
  by_cases hp : p = []
  · subst hp; rfl
  · rw [normChars_eq p hp]
    obtain ⟨k, plains, hshape, hplains, hk⟩ :=
      normSegs_shape (!(p.head? == some '/')) p
    rw [hshape]
    exact normChars_rebuild _ _ k plains hplains
      (fun ha => hk (by rw [ha]; rfl))

/-- `pathNormalize` is idempotent. -/
theorem pathNormalize_idem (s : String) :
    pathNormalize (pathNormalize s) = pathNormalize s := by
  unfold pathNormalize
  exact congrArg String.mk (normChars_idem s.data)

lemma mk_take_ne_empty (l : List Char) (n : Nat) (hl : l ≠ []) (hn : n ≠ 0) :
    (⟨l.take n⟩ : String) ≠ "" := by
  intro hcon
  have hd : l.take n = [] := by
    have := congrArg String.data hcon
    simpa using this
  rw [List.take_eq_nil_iff] at hd
  rcases hd with h0 | h0
  · exact hn h0
  · exact hl h0

lemma pathDirname_ne_empty (p : String) : pathDirname p ≠ "" := by
  unfold pathDirname
  by_cases h : p.data = []
  · rw [if_pos h]
    decide
  · rw [if_neg h]
    dsimp only
    split_ifs with h1 h2
    · decide
    · decide
    · decide
    · exact mk_take_ne_empty p.data _ h
        (fun hz => h1 (List.eq_nil_of_length_eq_zero hz))

/-! ## C8: `localPath` -/

/-- C8 counterexample: with an empty `file`, Node's `path.join` skips the
empty argument, so `localPath` yields `normalize(dirname(parent))` and not
`normalize(dirname(parent) + "/" + file)`, which would keep a trailing
slash. -/
theorem c8_local_path_counterexample :
    strStarts "" "/" = false ∧
    localPath "a/b.html" "" = "a" ∧
    pathNormalize (pathDirname "a/b.html" ++ "/" ++ "") = "a/" ∧
    ("a" : String) ≠ "a/" :=
  ⟨rfl, rfl, rfl, by decide⟩

/-- C8 amended: `local_path(parent_file, file)` returns `normalize(file)`
with all leading `/` stripped whenever `file` begins with `/`, ignoring
`parent_file` entirely; otherwise, for nonempty `file` it returns
`normalize(dirname(parent_file) + "/" + file)`, while for empty `file` it
returns `normalize(dirname(parent_file))` (the empty segment is skipped by
the join). -/
theorem c8_local_path_amended (p f : String) :
    (strStarts f "/" = true →
       localPath p f = ⟨(pathNormalize f).data.dropWhile (· = '/')⟩) ∧
    (strStarts f "/" = false → f ≠ "" →
       localPath p f = pathNormalize (pathDirname p ++ "/" ++ f)) ∧
    (strStarts f "/" = false → f = "" →
       localPath p f = pathNormalize (pathDirname p)) := by
  refine ⟨fun hs => ?_, fun hs hf => ?_, fun hs hf => ?_⟩
  · unfold localPath
    rw [if_pos hs]
  · unfold localPath
    rw [if_neg (by simp [hs])]
    unfold pathJoin
    rw [if_neg (by simp [pathDirname_ne_empty p]), if_neg (by simp [pathDirname_ne_empty p]),
      if_neg hf, pathNormalize_idem]
  · subst hf
    unfold localPath
    rw [if_neg (by simp [hs])]
    unfold pathJoin
    rw [if_neg (by simp [pathDirname_ne_empty p]), if_neg (by simp [pathDirname_ne_empty p]),
      if_pos rfl, pathNormalize_idem]

/-- Witness for the amended C8 at a concrete input. -/
theorem c8_local_path_witness :
    localPath "a/b.html" "c.html" =
      pathNormalize (pathDirname "a/b.html" ++ "/" ++ "c.html") :=
  (c8_local_path_amended "a/b.html" "c.html").2.1 rfl (by decide)

/-! ## C4: the async cache write lets sibling references double-load -/

/-- Outcome of the synchronous prefix of `Job.prototype.processFile`. -/
inductive FileStart where
  | cachedHit (nodes : List Node)
  | loadStarted (path : String) (content : String)
  | loadFailed (path : String)
  deriving Repr

/-- The synchronous prefix of `Job.prototype.processFile` (`job.js` lines
56-64): resolve the path against the parent context's file, consult the
AST cache, and on a miss invoke the loader (`this.load(file)` — logged in
`tmplLoads` at this point, since this is where the loader runs).  The
`grammar.parse` call and the `cachedNodes` write live in the load
promise's `.then` continuation and are NOT part of this step: until that
continuation runs, the cache still has no entry for the path. -/
def processFileStart (load : String → Option String) (file : String)
    (chain : List Ctx) (st : CompileState) : FileStart × CompileState :=
  let parentFile := ((chain.tail.head?).map (·.file)).getD ""
  let file' := localPath parentFile file
  match cacheGet st.cachedNodes file' with
  | some nodes => (.cachedHit nodes, st)
  | none =>
    match load file' with
    | none => (.loadFailed file', st)
    | some content =>
      (.loadStarted file' content,
        { st with tmplLoads := st.tmplLoads ++ [file'] })

/-- C4 (refuted; code bug): the AST cache is written only in the load
continuation, so it does not stop concurrent first references.  With
`index.html` = `<include file='t.html'/><include file='t.html'/>` and
`t.html` uncached, both sibling includes' `Promise.all` continuations run
their synchronous `processFile` prefix (path resolution, cache check,
loader call) before either load's `.then` — the only writer of
`cachedNodes` — can run: the event loop queues both include continuations
before any load continuation is even attached.  Hence both references
miss the cache and the loader is invoked twice for `t.html` (and the
content is parsed twice), violating the claimed at-most-once invariant,
which is plainly what the cache is there to enforce (spec invariant 3,
property 2). -/
theorem c4_sibling_cache_stampede :
    (processFileStart (fun p => if p = "t.html" then some "T" else none)
        "t.html" [⟨"t.html", []⟩, ⟨"index.html", []⟩]
        ⟨[], [], ["index.html"], []⟩).1 =
      .loadStarted "t.html" "T" ∧
    (processFileStart (fun p => if p = "t.html" then some "T" else none)
        "t.html" [⟨"t.html", []⟩, ⟨"index.html", []⟩]
        (processFileStart (fun p => if p = "t.html" then some "T" else none)
          "t.html" [⟨"t.html", []⟩, ⟨"index.html", []⟩]
          ⟨[], [], ["index.html"], []⟩).2).1 =
      .loadStarted "t.html" "T" ∧
    (processFileStart (fun p => if p = "t.html" then some "T" else none)
        "t.html" [⟨"t.html", []⟩, ⟨"index.html", []⟩]
        (processFileStart (fun p => if p = "t.html" then some "T" else none)
          "t.html" [⟨"t.html", []⟩, ⟨"index.html", []⟩]
          ⟨[], [], ["index.html"], []⟩).2).2.tmplLoads =
      ["index.html", "t.html", "t.html"] ∧
    ¬ (["index.html", "t.html", "t.html"] : List String).Nodup :=
  ⟨rfl, rfl, rfl, by decide⟩
